import Mathlib

/-!
Verification of the `pyrs` lexer (`src/lexer.rs`) and driver (`src/main.rs`).

The scanner generated by the `logos` derive on `Token` is embedded as
`scanStep`/`scanGo`: at each position it skips horizontal whitespace and
otherwise emits the maximal-munch token for the declared patterns
(`def`, `return`, identifiers `[a-zA-Z]+`, `(`, `)`, `->`, `:`, integers
`[0-9]+` parsed into a signed 64-bit range, and the blank-line run
`\n([ \t]*\n)*[ \t]*`), producing an error entry for unmatched input.
Source text is modelled as a `List Char` and spans as half-open index
ranges. The indentation post-processor `lex` with its indent stack is a
direct translation of `pub fn lex`; the stack is a `List Nat` whose head
is the Rust `Vec`'s last element (the top).
-/

namespace Pyrs

/-- The token type of `src/lexer.rs` (`enum Token<'a>`); `Identifier`
borrows a slice of the source, `Integer` carries the parsed value. -/
inductive Token where
  | Definition
  | Identifier (s : List Char)
  | LeftParentheses
  | RightParentheses
  | Arrow
  | Colon
  | Newline
  | Indentation
  | Deindentation
  | Return
  | Integer (n : Int)
deriving DecidableEq, Repr

/-- `Result<Token, ()>`: a token or the unit lexing error. -/
inductive LexResult where
  | ok (t : Token)
  | err
deriving DecidableEq, Repr

/-- `Range<usize>`: half-open span `[start, end)` into the source. -/
abbrev Span := Nat × Nat

/-- One element of the output stream: `(Result<Token, ()>, Range<usize>)`. -/
abbrev Entry := LexResult × Span

/-- Characters skipped by `#[logos(skip r"[ \t]+")]`. -/
def isHorizWs (c : Char) : Bool := c = ' ' || c = '\t'

/-- Characters that may continue a `Newline` run after the leading
newline: the regex `\n([ \t]*\n)*[ \t]*` accepts after its first `\n`
exactly the strings over space, tab and newline. -/
def isNlRunChar (c : Char) : Bool := c = ' ' || c = '\t' || c = '\n'

/-- The identifier alphabet `[a-zA-Z]`. -/
def isLetterChar (c : Char) : Bool := ('a' ≤ c && c ≤ 'z') || ('A' ≤ c && c ≤ 'Z')

/-- The digit alphabet `[0-9]`. -/
def isDigitChar (c : Char) : Bool := '0' ≤ c && c ≤ '9'

/-- Numeric value of one ASCII digit. -/
def digitVal (c : Char) : Nat := c.toNat - '0'.toNat

/-- Value of a digit string, as computed by `str::parse`. -/
def digitsToNat (l : List Char) : Nat := l.foldl (fun a c => 10 * a + digitVal c) 0

/-- Largest value accepted by `parse::<i64>` on an unsigned digit
string: `i64::MAX`. -/
def i64Max : Nat := 2 ^ 63 - 1

/-- Keyword priority: a maximal letter run that spells `def` or `return`
is the keyword token (`#[token]` beats the identifier regex on ties),
anything else is an `Identifier`. -/
def keywordOrIdentifier (w : List Char) : Token :=
  if w = "def".toList then Token.Definition
  else if w = "return".toList then Token.Return
  else Token.Identifier w

/-- One scanner step at position `i` looking at `c :: rest`: the
optional emitted entry and the number of characters consumed (≥ 1).
Skipped whitespace emits nothing; every other branch emits the
maximal-munch token or an error entry for unmatched input. -/
def scanStep (i : Nat) (c : Char) (rest : List Char) : Option Entry × Nat :=
  if isHorizWs c then
    (none, 1 + (rest.takeWhile isHorizWs).length)
  else if c = '\n' then
    let k := 1 + (rest.takeWhile isNlRunChar).length
    (some (LexResult.ok Token.Newline, (i, i + k)), k)
  else if c = '(' then (some (LexResult.ok Token.LeftParentheses, (i, i + 1)), 1)
  else if c = ')' then (some (LexResult.ok Token.RightParentheses, (i, i + 1)), 1)
  else if c = ':' then (some (LexResult.ok Token.Colon, (i, i + 1)), 1)
  else if c = '-' then
    if rest.head? = some '>' then (some (LexResult.ok Token.Arrow, (i, i + 2)), 2)
    else (some (LexResult.err, (i, i + 1)), 1)
  else if isLetterChar c then
    let w := c :: rest.takeWhile isLetterChar
    (some (LexResult.ok (keywordOrIdentifier w), (i, i + w.length)), w.length)
  else if isDigitChar c then
    let w := c :: rest.takeWhile isDigitChar
    if digitsToNat w ≤ i64Max then
      (some (LexResult.ok (Token.Integer (digitsToNat w : Int)), (i, i + w.length)), w.length)
    else (some (LexResult.err, (i, i + w.length)), w.length)
  else (some (LexResult.err, (i, i + 1)), 1)

/-- The scanner loop: repeatedly apply `scanStep` until the input is
exhausted. `fuel` only bounds the number of steps; since each step
consumes at least one character, `fuel = length` never truncates. -/
def scanGo : Nat → Nat → List Char → List Entry
  | 0, _, _ => []
  | _ + 1, _, [] => []
  | fuel + 1, i, c :: rest =>
    let s := scanStep i c rest
    let out := scanGo fuel (i + s.2) ((c :: rest).drop s.2)
    match s.1 with
    | none => out
    | some e => e :: out

/-- The raw token stream of `Token::lexer(source).spanned()`. -/
def scan (src : List Char) : List Entry := scanGo src.length 0 src

/-- `slice.rsplit('\n').next().unwrap_or("")`: the part of `l` after its
last newline (all of `l` when it has none). -/
def afterLastNewline (l : List Char) : List Char :=
  (l.reverse.takeWhile (fun c => c != '\n')).reverse

/-- `&source[span]`. -/
def sliceOf (src : List Char) (sp : Span) : List Char :=
  (src.drop sp.1).take (sp.2 - sp.1)

/-- The `indentation` computed for a `Newline` at span `sp`. -/
def newlineWidth (src : List Char) (sp : Span) : Nat :=
  (afterLastNewline (sliceOf src sp)).length

/-- The `while *indent_stack.last().unwrap() > indentation` loop: pop
and emit one `Deindentation` per popped level; returns the emitted
entries and the remaining stack. -/
def popDeindent (indentation : Nat) (sp : Span) : List Nat → List Entry × List Nat
  | [] => ([], [])
  | t :: s =>
    if indentation < t then
      ((LexResult.ok Token.Deindentation, sp) :: (popDeindent indentation sp s).1,
        (popDeindent indentation sp s).2)
    else ([], t :: s)

/-- Processing of one `Ok(relevant `Newline`)` arm of the `lex` loop:
the entries pushed for it (the `Newline` itself first) and the updated
stack. -/
def newlineStep (src : List Char) (sp : Span) (stack : List Nat) : List Entry × List Nat :=
  let indentation := newlineWidth src sp
  let current := stack.headD 0
  if indentation > current then
    ([(LexResult.ok Token.Newline, sp), (LexResult.ok Token.Indentation, sp)],
      indentation :: stack)
  else if indentation < current then
    let p := popDeindent indentation sp stack
    if p.2.headD 0 ≠ indentation then
      ((LexResult.ok Token.Newline, sp) :: p.1 ++ [(LexResult.err, sp)], p.2)
    else ((LexResult.ok Token.Newline, sp) :: p.1, p.2)
  else ([(LexResult.ok Token.Newline, sp)], stack)

/-- The main loop of `pub fn lex` over the raw entries, threading the
indent stack, together with the end-of-input flush (`while
indent_stack.len() > 1`). Returns the output stream and the final
stack. -/
def lexLoopS (src : List Char) : List Entry → List Nat → List Entry × List Nat
  | [], stack =>
    (List.replicate (stack.length - 1)
        (LexResult.ok Token.Deindentation, (src.length, src.length)),
      stack.drop (stack.length - 1))
  | (t, sp) :: rest, stack =>
    match t with
    | LexResult.ok Token.Newline =>
      let st := newlineStep src sp stack
      let r := lexLoopS src rest st.2
      (st.1 ++ r.1, r.2)
    | _ =>
      let r := lexLoopS src rest stack
      ((t, sp) :: r.1, r.2)

/-- `pub fn lex`: scan, then run the indentation post-processor with
initial stack `vec![0]`. -/
def lex (src : List Char) : List Entry := (lexLoopS src (scan src) [0]).1

/-- The successive values of the indent stack during a run of the `lex`
loop: one value per raw entry consumed, plus the value after the
end-of-input flush. -/
def stackTrace (src : List Char) : List Entry → List Nat → List (List Nat)
  | [], stack => [stack, stack.drop (stack.length - 1)]
  | (t, sp) :: rest, stack =>
    match t with
    | LexResult.ok Token.Newline =>
      stack :: stackTrace src rest (newlineStep src sp stack).2
    | _ => stack :: stackTrace src rest stack

/-- Outcome of one run of `fn main` in `src/main.rs`. -/
inductive DriverOutcome where
  | usageShown (stderrLines : List String)
  | printed (entries : List Entry)
  | panicked
deriving DecidableEq

/-- `fn main`, as a function of its argument vector and the optional
file contents (`none` models a failing `fs::read_to_string`): with
fewer than two arguments it prints the usage lines to stderr and
returns; otherwise it reads the file (`unwrap` panics on failure),
lexes it, and prints every entry (`token.unwrap()` panics on the first
error entry). -/
def mainModel (args : List String) (file : Option (List Char)) : DriverOutcome :=
  if args.length < 2 then
    DriverOutcome.usageShown ["Invalid usage", "Usage:", "    pyrsc <input.py>"]
  else
    match file with
    | none => DriverOutcome.panicked
    | some content =>
      if (lex content).all (fun e => e.1 ≠ LexResult.err) then
        DriverOutcome.printed (lex content)
      else DriverOutcome.panicked

/-- Characters/contexts at which no lexical pattern of `Token` matches:
either the character starts no pattern at all, or it is a `-` not
followed by `>` (the only multi-character fixed token). -/
def unmatchedAt (c : Char) (rest : List Char) : Bool :=
  (!(isHorizWs c || c = '\n' || c = '(' || c = ')' || c = ':' ||
      isLetterChar c || isDigitChar c)) &&
    (!(c = '-') || !(rest.head? = some '>'))

lemma digit_not_letter {c : Char} (h : isDigitChar c = true) : isLetterChar c = false := by
  cases hl : isLetterChar c with
  | false => rfl
  | true =>
    simp only [isDigitChar, Bool.and_eq_true, decide_eq_true_eq] at h
    simp only [isLetterChar, Bool.or_eq_true, Bool.and_eq_true, decide_eq_true_eq] at hl
    rcases hl with ⟨h1, _⟩ | ⟨h1, _⟩
    · exact absurd (le_trans h1 h.2) (by decide)
    · exact absurd (le_trans h1 h.2) (by decide)

lemma digit_facts {c : Char} (h : isDigitChar c = true) :
    isHorizWs c = false ∧ ¬(c = '\n') ∧ ¬(c = '(') ∧ ¬(c = ')') ∧ ¬(c = ':') ∧
      ¬(c = '-') ∧ isLetterChar c = false := by
  refine ⟨?_, ?_, ?_, ?_, ?_, ?_, digit_not_letter h⟩
  · cases hw : isHorizWs c with
    | false => rfl
    | true =>
      simp only [isHorizWs, Bool.or_eq_true, decide_eq_true_eq] at hw
      rcases hw with rfl | rfl <;> exact absurd h (by decide)
  all_goals (rintro rfl; exact absurd h (by decide))

lemma scanStep_unmatched {c : Char} {rest : List Char} (h : unmatchedAt c rest = true)
    (i : Nat) : scanStep i c rest = (some (LexResult.err, (i, i + 1)), 1) := by
  simp only [unmatchedAt, Bool.and_eq_true, Bool.not_eq_true', Bool.or_eq_false_iff,
    Bool.or_eq_true, Bool.not_eq_true, decide_eq_false_iff_not, decide_eq_true_eq] at h
  obtain ⟨⟨⟨⟨⟨⟨hws, hnl⟩, hlp⟩, hrp⟩, hcol⟩, hlet⟩, hdig⟩ := h.1
  by_cases hc : c = '-'
  · subst hc
    have hgt : ¬(rest.head? = some '>') := by
      rcases h.2 with h' | h'
      · exact absurd rfl h'
      · exact h'
    simp [scanStep, hws, hnl, hlp, hrp, hcol, hlet, hdig, hgt]
  · simp [scanStep, hws, hnl, hlp, hrp, hcol, hc, hlet, hdig]

lemma scanStep_overflow {c : Char} {rest : List Char} (hd : isDigitChar c = true)
    (hover : i64Max < digitsToNat (c :: rest.takeWhile isDigitChar)) (i : Nat) :
    scanStep i c rest =
      (some (LexResult.err, (i, i + (c :: rest.takeWhile isDigitChar).length)),
        (c :: rest.takeWhile isDigitChar).length) := by
  obtain ⟨hws, hnl, hlp, hrp, hcol, hdash, hlet⟩ := digit_facts hd
  simp [scanStep, hws, hnl, hlp, hrp, hcol, hdash, hlet, hd, Nat.not_le.mpr hover]

/-- C6: a character at which no lexical pattern matches yields exactly
one error entry spanning that single character, and an integer literal
(maximal digit run) whose value exceeds `i64::MAX` yields exactly one
error entry spanning the whole literal; in both cases scanning resumes
immediately after the error span and produces the stream for the rest
of the input. -/
theorem claim_c6_error_recovery :
    (∀ fuel i c rest, unmatchedAt c rest = true →
      scanGo (fuel + 1) i (c :: rest) =
        (LexResult.err, (i, i + 1)) :: scanGo fuel (i + 1) rest) ∧
    (∀ fuel i c rest, isDigitChar c = true →
      i64Max < digitsToNat (c :: rest.takeWhile isDigitChar) →
      scanGo (fuel + 1) i (c :: rest) =
        (LexResult.err, (i, i + (c :: rest.takeWhile isDigitChar).length)) ::
          scanGo fuel (i + (c :: rest.takeWhile isDigitChar).length)
            (rest.drop (rest.takeWhile isDigitChar).length)) := by
  constructor
  · intro fuel i c rest h
    simp [scanGo, scanStep_unmatched h]
  · intro fuel i c rest hd hover
    simp [scanGo, scanStep_overflow hd hover, List.length_cons]

/-- Witness for C6 at `"#"` and at the 19-nines overflowing literal. -/
theorem claim_c6_witness :
    scanGo 1 0 ['#'] = [(LexResult.err, (0, 1))] ∧
    scanGo 1 0 "9999999999999999999".toList =
      [(LexResult.err, (0, 19))] := by
  constructor
  · have h := claim_c6_error_recovery.1 0 0 '#' [] (by decide)
    simpa using h
  · have h := claim_c6_error_recovery.2 0 0 '9' "999999999999999999".toList
      (by decide) (by decide)
    simpa using h

/-- C9: with fewer than two command-line arguments the driver prints
the invalid-usage notice followed by the two-line usage message to the
error stream and returns normally — independently of any file, so the
lexer is never invoked and no panic occurs. -/
theorem claim_c9_usage_on_missing_arg (args : List String) (file : Option (List Char))
    (h : args.length < 2) :
    mainModel args file =
      DriverOutcome.usageShown ["Invalid usage", "Usage:", "    pyrsc <input.py>"] ∧
    mainModel args file ≠ DriverOutcome.panicked := by
  refine ⟨by simp [mainModel, h], ?_⟩
  simp [mainModel, h]

/-- Witness for C9: the empty argument vector. -/
theorem claim_c9_witness :
    mainModel [] (some "x".toList) =
      DriverOutcome.usageShown ["Invalid usage", "Usage:", "    pyrsc <input.py>"] ∧
    mainModel [] (some "x".toList) ≠ DriverOutcome.panicked :=
  claim_c9_usage_on_missing_arg [] (some "x".toList) (by decide)

/-- C5: the example program lexes to exactly the claimed token
sequence, with no error entries; the final `Deindentation` is the last
entry and its span `(21, 22)` reaches the end of the input (it is
emitted at the final newline, whose span it reuses). -/
theorem claim_c5_example_stream : lex "def f():\n    return 1\n".toList =
    [(LexResult.ok Token.Definition, (0, 3)),
     (LexResult.ok (Token.Identifier ['f']), (4, 5)),
     (LexResult.ok Token.LeftParentheses, (5, 6)),
     (LexResult.ok Token.RightParentheses, (6, 7)),
     (LexResult.ok Token.Colon, (7, 8)),
     (LexResult.ok Token.Newline, (8, 13)),
     (LexResult.ok Token.Indentation, (8, 13)),
     (LexResult.ok Token.Return, (13, 19)),
     (LexResult.ok (Token.Integer 1), (20, 21)),
     (LexResult.ok Token.Newline, (21, 22)),
     (LexResult.ok Token.Deindentation, (21, 22))] := by decide

lemma popDeindent_eq (w : Nat) (sp : Span) (s : List Nat) :
    popDeindent w sp s =
      (List.replicate ((s.takeWhile (fun t => decide (w < t))).length)
          (LexResult.ok Token.Deindentation, sp),
        s.dropWhile (fun t => decide (w < t))) := by
  induction s with
  | nil => simp [popDeindent]
  | cons t s ih =>
    by_cases h : w < t
    · simp [popDeindent, h, List.takeWhile_cons, List.dropWhile_cons, ih,
        List.replicate_succ]
    · simp [popDeindent, h, List.takeWhile_cons, List.dropWhile_cons]

lemma sorted_countP_zero {t : Nat} {s : List Nat} (hs : List.Chain' (· > ·) (t :: s))
    {w : Nat} (h : ¬ w < t) : (t :: s).countP (fun x => decide (w < x)) = 0 := by
  rw [List.countP_eq_zero]
  intro x hx
  have hpw : List.Pairwise (· > ·) (t :: s) := List.chain'_iff_pairwise.mp hs
  rcases List.mem_cons.mp hx with rfl | hxs
  · simpa using h
  · have hx' : t > x := (List.pairwise_cons.mp hpw).1 x hxs
    simp only [decide_eq_true_eq]
    omega

lemma sorted_takeWhile_length {s : List Nat} (hs : List.Chain' (· > ·) s) (w : Nat) :
    (s.takeWhile (fun t => decide (w < t))).length =
      s.countP (fun t => decide (w < t)) := by
  induction s with
  | nil => simp
  | cons t s ih =>
    by_cases h : w < t
    · have htail := (List.chain'_cons'.mp hs).2
      simp [List.takeWhile_cons, List.countP_cons, h, ih htail]
    · rw [sorted_countP_zero hs h]
      simp [List.takeWhile_cons, h]

lemma sorted_dropWhile_headD {s : List Nat} (hs : List.Chain' (· > ·) s) (h0 : 0 ∈ s)
    (w : Nat) : (s.dropWhile (fun t => decide (w < t))).headD 0 = w ↔ w ∈ s := by
  induction s with
  | nil => simp at h0
  | cons t s ih =>
    have htail := (List.chain'_cons'.mp hs).2
    by_cases h : w < t
    · have h0s : 0 ∈ s := by
        rcases List.mem_cons.mp h0 with h' | h'
        · omega
        · exact h'
      rw [List.dropWhile_cons_of_pos (by simpa using h), ih htail h0s, List.mem_cons]
      constructor
      · exact Or.inr
      · rintro (rfl | h')
        · omega
        · exact h'
    · rw [List.dropWhile_cons_of_neg (by simpa using h)]
      simp only [List.headD_cons]
      constructor
      · rintro rfl; exact List.mem_cons_self _ _
      · intro hw
        rcases List.mem_cons.mp hw with rfl | hws
        · rfl
        · have hpw := List.chain'_iff_pairwise.mp hs
          have hgt : t > w := (List.pairwise_cons.mp hpw).1 w hws
          omega

/-- C1: on a `Newline` whose width is strictly below the stack top, the
lexer emits one `Deindentation` per stack level strictly greater than
the width (popping exactly those), then exactly one error entry at the
same span when the width matches no open level (none otherwise), and
then continues the pass on the remaining raw entries with the stack
popped down to the first level not above the width. -/
theorem claim_c1_inconsistent_dedent (src : List Char) (sp : Span) (rest : List Entry)
    (stack : List Nat) (hs : List.Chain' (· > ·) stack) (h0 : 0 ∈ stack)
    (hlt : newlineWidth src sp < stack.headD 0) :
    (lexLoopS src ((LexResult.ok Token.Newline, sp) :: rest) stack).1 =
      (LexResult.ok Token.Newline, sp) ::
        (List.replicate (stack.countP (fun t => decide (newlineWidth src sp < t)))
            (LexResult.ok Token.Deindentation, sp) ++
          (if newlineWidth src sp ∈ stack then [] else [(LexResult.err, sp)]) ++
          (lexLoopS src rest
              (stack.dropWhile (fun t => decide (newlineWidth src sp < t)))).1) := by
  have hpop := popDeindent_eq (newlineWidth src sp) sp stack
  have hlen := sorted_takeWhile_length hs (newlineWidth src sp)
  have hiff := sorted_dropWhile_headD hs h0 (newlineWidth src sp)
  have hlt' : newlineWidth src sp < stack.head?.getD 0 := by
    simpa [List.headD_eq_head?_getD] using hlt
  have hngt : ¬ stack.head?.getD 0 < newlineWidth src sp := by omega
  by_cases hmem : newlineWidth src sp ∈ stack
  · have hhead : (stack.dropWhile (fun t => decide (newlineWidth src sp < t))).head?.getD 0 =
        newlineWidth src sp := by
      simpa [List.headD_eq_head?_getD] using hiff.mpr hmem
    simp [lexLoopS, newlineStep, hngt, hlt', hpop, hlen, hhead, hmem]
  · have hhead : ¬ (stack.dropWhile (fun t => decide (newlineWidth src sp < t))).head?.getD 0 =
        newlineWidth src sp := by
      intro h
      exact hmem (hiff.mp (by simpa [List.headD_eq_head?_getD] using h))
    simp [lexLoopS, newlineStep, hngt, hlt', hpop, hlen, hhead, hmem]

/-- Witness for C1: stack `[4, 2, 0]` (top first) and a newline of
width 1: two levels are popped and the width matches no level, so one
error entry follows the two `Deindentation` entries. -/
theorem claim_c1_witness :
    (lexLoopS "\n ".toList [(LexResult.ok Token.Newline, (0, 2))] [4, 2, 0]).1 =
      (LexResult.ok Token.Newline, (0, 2)) ::
        (List.replicate 2 (LexResult.ok Token.Deindentation, (0, 2)) ++
          [(LexResult.err, (0, 2))] ++
          (lexLoopS "\n ".toList [] [0]).1) := by
  have h := claim_c1_inconsistent_dedent "\n ".toList (0, 2) [] [4, 2, 0]
    (by norm_num [List.chain'_cons, List.chain'_singleton]) (by norm_num) (by decide)
  exact h.trans (by decide)

lemma lexLoopS_nil (src : List Char) (stack : List Nat) :
    lexLoopS src [] stack =
      (List.replicate (stack.length - 1)
          (LexResult.ok Token.Deindentation, (src.length, src.length)),
        stack.drop (stack.length - 1)) := rfl

lemma lexLoopS_cons_newline (src : List Char) (sp : Span) (es : List Entry)
    (stack : List Nat) :
    lexLoopS src ((LexResult.ok Token.Newline, sp) :: es) stack =
      ((newlineStep src sp stack).1 ++
          (lexLoopS src es (newlineStep src sp stack).2).1,
        (lexLoopS src es (newlineStep src sp stack).2).2) := rfl

lemma lexLoopS_cons_other (src : List Char) (t : LexResult) (sp : Span) (es : List Entry)
    (stack : List Nat) (ht : t ≠ LexResult.ok Token.Newline) :
    lexLoopS src ((t, sp) :: es) stack =
      ((t, sp) :: (lexLoopS src es stack).1, (lexLoopS src es stack).2) := by
  rcases t with tok | _
  · rcases tok <;> first | (exact absurd rfl ht) | rfl
  · rfl

lemma zero_mem_dropWhile {s : List Nat} (h0 : 0 ∈ s) (w : Nat) :
    0 ∈ s.dropWhile (fun t => decide (w < t)) := by
  induction s with
  | nil => simp at h0
  | cons t s ih =>
    by_cases h : w < t
    · rw [List.dropWhile_cons_of_pos (by simpa using h)]
      rcases List.mem_cons.mp h0 with h' | h0s
      · omega
      · exact ih h0s
    · rw [List.dropWhile_cons_of_neg (by simpa using h)]
      exact h0

lemma takeWhile_add_dropWhile_length {s : List Nat} {w : Nat} :
    (s.takeWhile (fun t => decide (w < t))).length +
      (s.dropWhile (fun t => decide (w < t))).length = s.length := by
  conv_rhs => rw [← List.takeWhile_append_dropWhile (p := fun t => decide (w < t)) (l := s)]
  rw [List.length_append]

/-- The three possible effects of processing one `Newline`: push one
`Indentation`, pop some `Deindentation`s (with or without a trailing
error entry), or nothing beyond the `Newline` itself. -/
lemma newlineStep_cases (src : List Char) (sp : Span) (stack : List Nat) (h0 : 0 ∈ stack) :
    ((newlineStep src sp stack).1 =
        [(LexResult.ok Token.Newline, sp), (LexResult.ok Token.Indentation, sp)] ∧
      (newlineStep src sp stack).2 = newlineWidth src sp :: stack) ∨
    (∃ k ers, (newlineStep src sp stack).1 =
        (LexResult.ok Token.Newline, sp) ::
          (List.replicate k (LexResult.ok Token.Deindentation, sp) ++ ers) ∧
      (ers = [] ∨ ers = [(LexResult.err, sp)]) ∧
      k + (newlineStep src sp stack).2.length = stack.length ∧
      0 ∈ (newlineStep src sp stack).2) ∨
    ((newlineStep src sp stack).1 = [(LexResult.ok Token.Newline, sp)] ∧
      (newlineStep src sp stack).2 = stack) := by
  simp only [newlineStep]
  split_ifs with h1 h2 h3
  · exact Or.inl ⟨rfl, rfl⟩
  · refine Or.inr (Or.inl ⟨(stack.takeWhile (fun t => decide (newlineWidth src sp < t))).length,
      [(LexResult.err, sp)], ?_, Or.inr rfl, ?_, ?_⟩)
    · simp [popDeindent_eq]
    · simp [popDeindent_eq, takeWhile_add_dropWhile_length]
    · simp [popDeindent_eq, zero_mem_dropWhile h0]
  · refine Or.inr (Or.inl ⟨(stack.takeWhile (fun t => decide (newlineWidth src sp < t))).length,
      [], ?_, Or.inl rfl, ?_, ?_⟩)
    · simp [popDeindent_eq]
    · simp [popDeindent_eq, takeWhile_add_dropWhile_length]
    · simp [popDeindent_eq, zero_mem_dropWhile h0]
  · exact Or.inr (Or.inr ⟨rfl, rfl⟩)

/-- Signed contribution of one entry to the block-nesting depth. -/
def entryWeight (e : Entry) : Int :=
  if e.1 = LexResult.ok Token.Indentation then 1
  else if e.1 = LexResult.ok Token.Deindentation then -1 else 0

/-- `Indentation` count minus `Deindentation` count. -/
def bal : List Entry → Int
  | [] => 0
  | e :: l => entryWeight e + bal l

/-- Minimum of `bal` over all prefixes of the list. -/
def minbal : List Entry → Int
  | [] => 0
  | e :: l => min 0 (entryWeight e + minbal l)

/-- Number of `Indentation` entries. -/
def indCount (l : List Entry) : Nat :=
  l.countP (fun e => decide (e.1 = LexResult.ok Token.Indentation))

/-- Number of `Deindentation` entries. -/
def deindCount (l : List Entry) : Nat :=
  l.countP (fun e => decide (e.1 = LexResult.ok Token.Deindentation))

lemma bal_nil : bal [] = 0 := rfl

lemma bal_cons (e : Entry) (l : List Entry) : bal (e :: l) = entryWeight e + bal l := rfl

lemma minbal_nil : minbal [] = 0 := rfl

lemma minbal_cons (e : Entry) (l : List Entry) :
    minbal (e :: l) = min 0 (entryWeight e + minbal l) := rfl

lemma bal_append (a b : List Entry) : bal (a ++ b) = bal a + bal b := by
  induction a with
  | nil => simp [bal_nil]
  | cons e a ih =>
    rw [List.cons_append, bal_cons, bal_cons, ih]
    ring

lemma minbal_nonpos (l : List Entry) : minbal l ≤ 0 := by
  cases l with
  | nil => simp [minbal]
  | cons e l => exact min_le_left _ _

lemma minbal_le_bal_of_prefix : ∀ {p l : List Entry}, p <+: l → minbal l ≤ bal p := by
  intro p
  induction p with
  | nil =>
    intro l _
    simpa [bal] using minbal_nonpos l
  | cons e p ih =>
    intro l h
    obtain ⟨t, rfl⟩ := h
    have h1 : minbal (p ++ t) ≤ bal p := ih ⟨t, rfl⟩
    rw [List.cons_append, minbal_cons, bal_cons]
    calc min 0 (entryWeight e + minbal (p ++ t)) ≤ entryWeight e + minbal (p ++ t) :=
          min_le_right _ _
      _ ≤ entryWeight e + bal p := by omega

lemma minbal_append (a b : List Entry) :
    minbal (a ++ b) = min (minbal a) (bal a + minbal b) := by
  induction a with
  | nil => simp [minbal_nil, bal_nil, min_eq_right (minbal_nonpos b)]
  | cons e a ih =>
    rw [List.cons_append, minbal_cons, minbal_cons, bal_cons, ih]
    simp only [min_def]
    split_ifs <;> omega

lemma bal_eq_counts (l : List Entry) :
    bal l = (indCount l : Int) - (deindCount l : Int) := by
  induction l with
  | nil => simp [bal_nil, indCount, deindCount]
  | cons e l ih =>
    rw [bal_cons, ih]
    simp only [indCount, deindCount, List.countP_cons, entryWeight]
    by_cases h1 : e.1 = LexResult.ok Token.Indentation
    · have h2 : ¬ e.1 = LexResult.ok Token.Deindentation := by simp [h1]
      simp only [h1, h2]
      simp
      omega
    · by_cases h2 : e.1 = LexResult.ok Token.Deindentation
      · simp only [h1, h2]
        simp
        omega
      · simp only [h1, h2]
        simp

lemma entryWeight_deind (sp : Span) :
    entryWeight (LexResult.ok Token.Deindentation, sp) = -1 := rfl

lemma entryWeight_newline (sp : Span) :
    entryWeight (LexResult.ok Token.Newline, sp) = 0 := rfl

lemma entryWeight_ind (sp : Span) :
    entryWeight (LexResult.ok Token.Indentation, sp) = 1 := rfl

lemma entryWeight_err (sp : Span) : entryWeight (LexResult.err, sp) = 0 := rfl

lemma bal_replicate_deind (n : Nat) (sp : Span) :
    bal (List.replicate n (LexResult.ok Token.Deindentation, sp)) = -(n : Int) := by
  induction n with
  | zero => simp [bal_nil]
  | succ n ih =>
    rw [List.replicate_succ, bal_cons, ih, entryWeight_deind]
    push_cast
    ring

lemma minbal_replicate_deind (n : Nat) (sp : Span) :
    minbal (List.replicate n (LexResult.ok Token.Deindentation, sp)) = -(n : Int) := by
  induction n with
  | zero => simp [minbal_nil]
  | succ n ih =>
    rw [List.replicate_succ, minbal_cons, ih, entryWeight_deind]
    simp only [min_def]
    split_ifs <;> push_cast <;> omega

/-- The indent-stack invariant: strictly decreasing from the top (list
head) down, ending in the sentinel `0` — i.e. strictly increasing from
bottom to top with bottom `0`. -/
def StackInv (s : List Nat) : Prop :=
  List.Chain' (· > ·) s ∧ s.getLast? = some 0

lemma getLast?_cons_of_ne_nil {α : Type} {a : α} {l : List α} (h : l ≠ []) :
    (a :: l).getLast? = l.getLast? :=
  List.getLast?_append_of_ne_nil [a] h

lemma drop_length_pred {s : List Nat} (hlast : s.getLast? = some 0) (hne : s ≠ []) :
    s.drop (s.length - 1) = [0] := by
  induction s with
  | nil => exact absurd rfl hne
  | cons a s ih =>
    cases s with
    | nil =>
      simp only [List.getLast?_singleton, Option.some.injEq] at hlast
      simp [hlast]
    | cons b t =>
      have h' : (b :: t).getLast? = some 0 := by
        rwa [getLast?_cons_of_ne_nil (by simp)] at hlast
      have hrec := ih h' (by simp)
      rw [show (a :: b :: t).length - 1 = t.length + 1 by simp, List.drop_succ_cons,
        show t.length = (b :: t).length - 1 by simp]
      exact hrec

/-- Raw entry lists in which no synthetic token occurs (true of every
scanner output: the scanner never produces `Indentation` or
`Deindentation`). -/
def NoSynth (es : List Entry) : Prop :=
  ∀ e ∈ es, e.1 ≠ LexResult.ok Token.Indentation ∧ e.1 ≠ LexResult.ok Token.Deindentation

lemma scanStep_no_synth {i : Nat} {c : Char} {rest : List Char} {e : Entry}
    (h : (scanStep i c rest).1 = some e) :
    e.1 ≠ LexResult.ok Token.Indentation ∧ e.1 ≠ LexResult.ok Token.Deindentation := by
  simp only [scanStep] at h
  split_ifs at h <;> simp at h
  all_goals
    (subst h
     refine ⟨?_, ?_⟩ <;> simp [keywordOrIdentifier] <;> split_ifs <;> simp)

lemma scan_no_synth : ∀ (fuel i : Nat) (l : List Char), NoSynth (scanGo fuel i l) := by
  intro fuel
  induction fuel with
  | zero => intro i l; intro e he; simp [scanGo] at he
  | succ fuel ih =>
    intro i l
    cases l with
    | nil => intro e he; simp [scanGo] at he
    | cons c rest =>
      intro e he
      rw [scanGo] at he
      rcases hstep : (scanStep i c rest).1 with _ | e'
      · rw [hstep] at he
        exact ih _ _ e he
      · rw [hstep] at he
        rcases List.mem_cons.mp he with rfl | he'
        · exact scanStep_no_synth hstep
        · exact ih _ _ e he'

lemma newlineStep_no_synth_preserved {src : List Char} {sp : Span} {stack : List Nat} :
    0 ∈ stack → 0 ∈ (newlineStep src sp stack).2 := by
  intro h0
  rcases newlineStep_cases src sp stack h0 with ⟨_, h2⟩ | ⟨k, ers, _, _, _, h2⟩ | ⟨_, h2⟩
  · rw [h2]; exact List.mem_cons_of_mem _ h0
  · exact h2
  · rw [h2]; exact h0

lemma lexLoopS_bal (src : List Char) :
    ∀ (es : List Entry) (stack : List Nat), 0 ∈ stack → NoSynth es →
      bal (lexLoopS src es stack).1 = 1 - (stack.length : Int) := by
  intro es
  induction es with
  | nil =>
    intro stack h0 _
    have hne : stack ≠ [] := by rintro rfl; simp at h0
    have hlen : 1 ≤ stack.length := List.length_pos.mpr hne
    rw [lexLoopS_nil]
    simp only [bal_replicate_deind]
    omega
  | cons e es ih =>
    intro stack h0 hns
    obtain ⟨t, sp⟩ := e
    have hnsRest : NoSynth es := fun x hx => hns x (List.mem_cons_of_mem _ hx)
    by_cases ht : t = LexResult.ok Token.Newline
    · subst ht
      rw [lexLoopS_cons_newline]
      simp only [bal_append]
      have h0' : 0 ∈ (newlineStep src sp stack).2 := newlineStep_no_synth_preserved h0
      have hrec := ih (newlineStep src sp stack).2 h0' hnsRest
      rcases newlineStep_cases src sp stack h0 with ⟨h1, h2⟩ | ⟨k, ers, h1, hers, hlen, _⟩ |
          ⟨h1, h2⟩
      · rw [h1]
        rw [h2] at hrec ⊢
        simp only [List.length_cons] at hrec
        have hb : bal [(LexResult.ok Token.Newline, sp),
            (LexResult.ok Token.Indentation, sp)] = 1 := by
          simp [bal_cons, bal_nil, entryWeight_newline, entryWeight_ind]
        rw [hb, hrec]
        push_cast
        ring
      · rw [h1]
        have hbe : bal ers = 0 := by
          rcases hers with rfl | rfl
          · simp [bal_nil]
          · simp [bal_cons, bal_nil, entryWeight_err]
        have hb : bal ((LexResult.ok Token.Newline, sp) ::
            (List.replicate k (LexResult.ok Token.Deindentation, sp) ++ ers)) = -(k : Int) := by
          rw [bal_cons, entryWeight_newline, bal_append, bal_replicate_deind, hbe]
          ring
        rw [hb, hrec]
        omega
      · rw [h1]
        have hb : bal [(LexResult.ok Token.Newline, sp)] = 0 := by
          simp [bal_cons, bal_nil, entryWeight_newline]
        rw [hb, hrec, h2]
        ring
    · rw [lexLoopS_cons_other src t sp es stack ht]
      have hw : entryWeight (t, sp) = 0 := by
        have h := hns (t, sp) (List.mem_cons_self _ _)
        simp only [entryWeight, if_neg h.1, if_neg h.2]
      rw [bal_cons, hw, ih stack h0 hnsRest]
      ring

lemma lexLoopS_minbal (src : List Char) :
    ∀ (es : List Entry) (stack : List Nat), 0 ∈ stack → NoSynth es →
      1 - (stack.length : Int) ≤ minbal (lexLoopS src es stack).1 := by
  intro es
  induction es with
  | nil =>
    intro stack h0 _
    have hne : stack ≠ [] := by rintro rfl; simp at h0
    have hlen : 1 ≤ stack.length := List.length_pos.mpr hne
    rw [lexLoopS_nil]
    simp only [minbal_replicate_deind]
    omega
  | cons e es ih =>
    intro stack h0 hns
    obtain ⟨t, sp⟩ := e
    have hne : stack ≠ [] := by rintro rfl; simp at h0
    have hlen : 1 ≤ stack.length := List.length_pos.mpr hne
    have hnsRest : NoSynth es := fun x hx => hns x (List.mem_cons_of_mem _ hx)
    by_cases ht : t = LexResult.ok Token.Newline
    · subst ht
      rw [lexLoopS_cons_newline]
      rw [minbal_append]
      have h0' : 0 ∈ (newlineStep src sp stack).2 := newlineStep_no_synth_preserved h0
      have hrec := ih (newlineStep src sp stack).2 h0' hnsRest
      rcases newlineStep_cases src sp stack h0 with ⟨h1, h2⟩ | ⟨k, ers, h1, hers, hklen, _⟩ |
          ⟨h1, h2⟩
      · rw [h1]
        rw [h2] at hrec ⊢
        simp only [List.length_cons] at hrec
        have hmb : minbal [(LexResult.ok Token.Newline, sp),
            (LexResult.ok Token.Indentation, sp)] = 0 := by
          simp [minbal_cons, minbal_nil, entryWeight_newline, entryWeight_ind]
        have hb : bal [(LexResult.ok Token.Newline, sp),
            (LexResult.ok Token.Indentation, sp)] = 1 := by
          simp [bal_cons, bal_nil, entryWeight_newline, entryWeight_ind]
        rw [hmb, hb]
        simp only [min_def]
        split_ifs <;> push_cast at hrec ⊢ <;> omega
      · rw [h1]
        have hne2 : (newlineStep src sp stack).2 ≠ [] := by
          rintro hcon
          rw [hcon] at h0'
          simp at h0'
        have hlen2 : 1 ≤ (newlineStep src sp stack).2.length := List.length_pos.mpr hne2
        have hbe : bal ers = 0 := by
          rcases hers with rfl | rfl
          · simp [bal_nil]
          · simp [bal_cons, bal_nil, entryWeight_err]
        have hmbe : minbal ers = 0 := by
          rcases hers with rfl | rfl
          · simp [minbal_nil]
          · simp [minbal_cons, minbal_nil, entryWeight_err]
        have hb : bal ((LexResult.ok Token.Newline, sp) ::
            (List.replicate k (LexResult.ok Token.Deindentation, sp) ++ ers)) = -(k : Int) := by
          rw [bal_cons, entryWeight_newline, bal_append, bal_replicate_deind, hbe]
          ring
        have hmb : minbal ((LexResult.ok Token.Newline, sp) ::
            (List.replicate k (LexResult.ok Token.Deindentation, sp) ++ ers)) = -(k : Int) := by
          rw [minbal_cons, entryWeight_newline, minbal_append, minbal_replicate_deind,
            bal_replicate_deind, hmbe]
          simp only [min_def]
          split_ifs <;> omega
        rw [hb, hmb]
        simp only [min_def]
        split_ifs <;> omega
      · rw [h1]
        have hL : (newlineStep src sp stack).2.length = stack.length := by rw [h2]
        have hb : bal [(LexResult.ok Token.Newline, sp)] = 0 := by
          simp [bal_cons, bal_nil, entryWeight_newline]
        have hmb : minbal [(LexResult.ok Token.Newline, sp)] = 0 := by
          simp [minbal_cons, minbal_nil, entryWeight_newline]
        rw [hb, hmb]
        simp only [min_def]
        split_ifs <;> omega
    · rw [lexLoopS_cons_other src t sp es stack ht]
      have hw : entryWeight (t, sp) = 0 := by
        have h := hns (t, sp) (List.mem_cons_self _ _)
        simp only [entryWeight, if_neg h.1, if_neg h.2]
      rw [minbal_cons, hw]
      have hrec := ih stack h0 hnsRest
      simp only [min_def]
      split_ifs <;> omega

/-- C2: in every prefix of the output of `lex` the number of
`Deindentation` entries never exceeds the number of `Indentation`
entries, and over the whole output the two counts are equal. -/
theorem claim_c2_balanced_blocks (src : List Char) :
    (∀ p, p <+: lex src → deindCount p ≤ indCount p) ∧
      indCount (lex src) = deindCount (lex src) := by
  have h0 : (0 : Nat) ∈ [0] := List.mem_singleton.mpr rfl
  have hns : NoSynth (scan src) := scan_no_synth src.length 0 src
  have hbal : bal (lex src) = 0 := by
    have h := lexLoopS_bal src (scan src) [0] h0 hns
    simpa [lex] using h
  have hmin : (0 : Int) ≤ minbal (lex src) := by
    have h := lexLoopS_minbal src (scan src) [0] h0 hns
    simpa [lex] using h
  constructor
  · intro p hp
    have h1 : minbal (lex src) ≤ bal p := minbal_le_bal_of_prefix hp
    have h2 : (0 : Int) ≤ bal p := le_trans hmin h1
    rw [bal_eq_counts] at h2
    omega
  · have := bal_eq_counts (lex src)
    omega

/-- Witness for C2 at the input `"a\n b"` and the prefix of length 3 of
its output. -/
theorem claim_c2_witness :
    deindCount ((lex "a\n b".toList).take 3) ≤ indCount ((lex "a\n b".toList).take 3) ∧
      indCount (lex "a\n b".toList) = deindCount (lex "a\n b".toList) :=
  ⟨(claim_c2_balanced_blocks "a\n b".toList).1 _ (List.take_prefix 3 _),
    (claim_c2_balanced_blocks "a\n b".toList).2⟩

lemma newlineStep_spans {src : List Char} {sp : Span} {stack : List Nat} :
    ∀ e ∈ (newlineStep src sp stack).1, e.2 = sp := by
  intro e he
  simp only [newlineStep] at he
  split_ifs at he
  · simp only [List.mem_cons, List.not_mem_nil, or_false] at he
    rcases he with rfl | rfl
    · rfl
    · rfl
  · rw [popDeindent_eq] at he
    rcases List.mem_cons.mp he with rfl | he'
    · rfl
    · rcases List.mem_append.mp he' with h | h
      · exact congrArg Prod.snd (List.eq_of_mem_replicate h)
      · rcases List.mem_singleton.mp h with rfl
        rfl
  · rw [popDeindent_eq] at he
    rcases List.mem_cons.mp he with rfl | he'
    · rfl
    · exact congrArg Prod.snd (List.eq_of_mem_replicate he')
  · rcases List.mem_singleton.mp he with rfl
    rfl

lemma newlineStep_has_newline (src : List Char) (sp : Span) (stack : List Nat) :
    (LexResult.ok Token.Newline, sp) ∈ (newlineStep src sp stack).1 := by
  simp only [newlineStep]
  split_ifs <;> simp

lemma lexLoopS_synth_span (src : List Char) :
    ∀ (es : List Entry) (stack : List Nat), NoSynth es →
      ∀ e ∈ (lexLoopS src es stack).1,
        (e.1 = LexResult.ok Token.Indentation ∨ e.1 = LexResult.ok Token.Deindentation) →
        e.2 = (src.length, src.length) ∨
          (LexResult.ok Token.Newline, e.2) ∈ (lexLoopS src es stack).1 := by
  intro es
  induction es with
  | nil =>
    intro stack _ e he _
    rw [lexLoopS_nil] at he ⊢
    exact Or.inl (congrArg Prod.snd (List.eq_of_mem_replicate he))
  | cons x es ih =>
    intro stack hns e he hsyn
    obtain ⟨t, sp⟩ := x
    have hnsRest : NoSynth es := fun y hy => hns y (List.mem_cons_of_mem _ hy)
    by_cases ht : t = LexResult.ok Token.Newline
    · subst ht
      rw [lexLoopS_cons_newline] at he ⊢
      rcases List.mem_append.mp he with h | h
      · have hsp : e.2 = sp := newlineStep_spans e h
        rw [hsp]
        exact Or.inr (List.mem_append_left _ (newlineStep_has_newline src sp stack))
      · rcases ih (newlineStep src sp stack).2 hnsRest e h hsyn with h' | h'
        · exact Or.inl h'
        · exact Or.inr (List.mem_append_right _ h')
    · rw [lexLoopS_cons_other src t sp es stack ht] at he ⊢
      rcases List.mem_cons.mp he with rfl | h
      · rcases hsyn with h' | h'
        · exact absurd h' (hns (t, sp) (List.mem_cons_self _ _)).1
        · exact absurd h' (hns (t, sp) (List.mem_cons_self _ _)).2
      · rcases ih stack hnsRest e h hsyn with h' | h'
        · exact Or.inl h'
        · exact Or.inr (List.mem_cons_of_mem _ h')

lemma newlineStep_inv {src : List Char} {sp : Span} {stack : List Nat}
    (h : StackInv stack) : StackInv (newlineStep src sp stack).2 := by
  obtain ⟨hch, hlast⟩ := h
  have hne : stack ≠ [] := by rintro rfl; simp at hlast
  have h0 : 0 ∈ stack := List.mem_of_getLast?_eq_some hlast
  simp only [newlineStep]
  split_ifs with h1 h2 h3
  · constructor
    · rw [List.chain'_cons']
      refine ⟨?_, hch⟩
      intro y hy
      cases stack with
      | nil => exact absurd rfl hne
      | cons a s =>
        simp only [List.head?_cons, Option.mem_def, Option.some.injEq] at hy
        subst hy
        simpa using h1
    · rw [getLast?_cons_of_ne_nil hne]
      exact hlast
  · rw [popDeindent_eq]
    constructor
    · exact hch.suffix (List.dropWhile_suffix _)
    · have hmem := zero_mem_dropWhile h0 (newlineWidth src sp)
      have hdne : stack.dropWhile (fun t => decide (newlineWidth src sp < t)) ≠ [] := by
        intro hcon
        rw [hcon] at hmem
        simp at hmem
      obtain ⟨pre, hpre⟩ := List.dropWhile_suffix
        (l := stack) (fun t => decide (newlineWidth src sp < t))
      rw [← hpre, List.getLast?_append_of_ne_nil pre hdne] at hlast
      exact hlast
  · rw [popDeindent_eq]
    constructor
    · exact hch.suffix (List.dropWhile_suffix _)
    · have hmem := zero_mem_dropWhile h0 (newlineWidth src sp)
      have hdne : stack.dropWhile (fun t => decide (newlineWidth src sp < t)) ≠ [] := by
        intro hcon
        rw [hcon] at hmem
        simp at hmem
      obtain ⟨pre, hpre⟩ := List.dropWhile_suffix
        (l := stack) (fun t => decide (newlineWidth src sp < t))
      rw [← hpre, List.getLast?_append_of_ne_nil pre hdne] at hlast
      exact hlast
  · exact ⟨hch, hlast⟩

lemma lexLoopS_final (src : List Char) :
    ∀ (es : List Entry) (stack : List Nat), StackInv stack →
      (lexLoopS src es stack).2 = [0] := by
  intro es
  induction es with
  | nil =>
    intro stack h
    have hne : stack ≠ [] := by rintro rfl; simp [StackInv] at h
    rw [lexLoopS_nil]
    exact drop_length_pred h.2 hne
  | cons x es ih =>
    intro stack h
    obtain ⟨t, sp⟩ := x
    by_cases ht : t = LexResult.ok Token.Newline
    · subst ht
      rw [lexLoopS_cons_newline]
      exact ih _ (newlineStep_inv h)
    · rw [lexLoopS_cons_other src t sp es stack ht]
      exact ih _ h

lemma stackTrace_cons_newline (src : List Char) (sp : Span) (es : List Entry)
    (stack : List Nat) :
    stackTrace src ((LexResult.ok Token.Newline, sp) :: es) stack =
      stack :: stackTrace src es (newlineStep src sp stack).2 := rfl

lemma stackTrace_cons_other (src : List Char) (t : LexResult) (sp : Span) (es : List Entry)
    (stack : List Nat) (ht : t ≠ LexResult.ok Token.Newline) :
    stackTrace src ((t, sp) :: es) stack = stack :: stackTrace src es stack := by
  rcases t with tok | _
  · rcases tok <;> first | (exact absurd rfl ht) | rfl
  · rfl

lemma stackTrace_ne_nil (src : List Char) (es : List Entry) (stack : List Nat) :
    stackTrace src es stack ≠ [] := by
  cases es with
  | nil => simp [stackTrace]
  | cons x es =>
    obtain ⟨t, sp⟩ := x
    by_cases ht : t = LexResult.ok Token.Newline
    · subst ht
      rw [stackTrace_cons_newline]
      simp
    · rw [stackTrace_cons_other src t sp es stack ht]
      simp

lemma stackTrace_head (src : List Char) (es : List Entry) (stack : List Nat) :
    (stackTrace src es stack).head? = some stack := by
  cases es with
  | nil => rfl
  | cons x es =>
    obtain ⟨t, sp⟩ := x
    by_cases ht : t = LexResult.ok Token.Newline
    · subst ht
      rw [stackTrace_cons_newline]
      rfl
    · rw [stackTrace_cons_other src t sp es stack ht]
      rfl

lemma stackTrace_getLast (src : List Char) :
    ∀ (es : List Entry) (stack : List Nat),
      (stackTrace src es stack).getLast? = some ((lexLoopS src es stack).2) := by
  intro es
  induction es with
  | nil => intro stack; rfl
  | cons x es ih =>
    intro stack
    obtain ⟨t, sp⟩ := x
    by_cases ht : t = LexResult.ok Token.Newline
    · subst ht
      rw [stackTrace_cons_newline, getLast?_cons_of_ne_nil (stackTrace_ne_nil _ _ _), ih,
        lexLoopS_cons_newline]
    · rw [stackTrace_cons_other src t sp es stack ht,
        getLast?_cons_of_ne_nil (stackTrace_ne_nil _ _ _), ih,
        lexLoopS_cons_other src t sp es stack ht]

lemma stackTrace_mem_inv (src : List Char) :
    ∀ (es : List Entry) (stack : List Nat), StackInv stack →
      ∀ s ∈ stackTrace src es stack, StackInv s := by
  intro es
  induction es with
  | nil =>
    intro stack h s hs
    have hne : stack ≠ [] := by rintro rfl; simp [StackInv] at h
    simp only [stackTrace, List.mem_cons, List.not_mem_nil, or_false] at hs
    rcases hs with rfl | rfl
    · exact h
    · rw [drop_length_pred h.2 hne]
      exact ⟨List.chain'_singleton 0, rfl⟩
  | cons x es ih =>
    intro stack h s hs
    obtain ⟨t, sp⟩ := x
    by_cases ht : t = LexResult.ok Token.Newline
    · subst ht
      rw [stackTrace_cons_newline] at hs
      rcases List.mem_cons.mp hs with rfl | hs'
      · exact h
      · exact ih _ (newlineStep_inv h) s hs'
    · rw [stackTrace_cons_other src t sp es stack ht] at hs
      rcases List.mem_cons.mp hs with rfl | hs'
      · exact h
      · exact ih _ h s hs'

/-- C4: along the whole run of `lex` (the stack is listed top-first, so
"strictly increasing from bottom to top" is `Chain' (· > ·)`): the
stack starts as `[0]`, is never empty, is strictly decreasing from the
head with bottom element the sentinel `0`, and after the end-of-input
flush it is exactly `[0]` again. -/
theorem claim_c4_indent_stack (src : List Char) :
    (stackTrace src (scan src) [0]).head? = some [0] ∧
    (stackTrace src (scan src) [0]).getLast? = some [0] ∧
    ∀ s ∈ stackTrace src (scan src) [0],
      s ≠ [] ∧ List.Chain' (· > ·) s ∧ s.getLast? = some 0 := by
  have hinv : StackInv [0] := ⟨List.chain'_singleton 0, rfl⟩
  refine ⟨stackTrace_head src _ _, ?_, ?_⟩
  · rw [stackTrace_getLast src (scan src) [0], lexLoopS_final src (scan src) [0] hinv]
  · intro s hs
    have h := stackTrace_mem_inv src (scan src) [0] hinv s hs
    refine ⟨?_, h.1, h.2⟩
    rintro rfl
    simp [StackInv] at h

/-- Witness for C4: during `lex "a\n b"` the stack value `[1, 0]`
occurs and satisfies the invariant. -/
theorem claim_c4_witness :
    [1, 0] ≠ ([] : List Nat) ∧ List.Chain' (· > ·) [1, 0] ∧
      ([1, 0] : List Nat).getLast? = some 0 :=
  (claim_c4_indent_stack "a\n b".toList).2.2 [1, 0] (by decide)

/-- C3 (amended): every synthetic `Indentation`/`Deindentation` entry
of `lex` either carries the zero-width end-of-input span (the
`Deindentation`s of the EOF flush) or carries exactly the full span of
a `Newline` entry of the stream — its triggering newline — not a
zero-width point. -/
theorem claim_c3_synthetic_spans (src : List Char) (e : Entry) (he : e ∈ lex src)
    (hsyn : e.1 = LexResult.ok Token.Indentation ∨ e.1 = LexResult.ok Token.Deindentation) :
    e.2 = (src.length, src.length) ∨ (LexResult.ok Token.Newline, e.2) ∈ lex src :=
  lexLoopS_synth_span src (scan src) [0] (scan_no_synth src.length 0 src) e he hsyn

/-- Witness for C3's amended theorem: the `Indentation` entry of
`lex "a\n b"` carries the span `(1, 3)` of its newline. -/
theorem claim_c3_witness :
    ((1 : Nat), (3 : Nat)) = ((("a\n b".toList).length, ("a\n b".toList).length) : Span) ∨
      (LexResult.ok Token.Newline, ((1 : Nat), (3 : Nat))) ∈ lex "a\n b".toList :=
  claim_c3_synthetic_spans "a\n b".toList (LexResult.ok Token.Indentation, (1, 3))
    (by decide) (Or.inl rfl)

lemma takeWhile_length_le {p : Char → Bool} {l : List Char} :
    (l.takeWhile p).length ≤ l.length :=
  (List.takeWhile_prefix p).length_le

/-- Per-step scanner contract: every step consumes between 1 and
`rest.length + 1` characters; an emitted entry spans exactly the
consumed characters from `i`; an emitted `Newline` is triggered by a
`\n` and matches the maximal run of spaces/tabs/newlines after it. -/
lemma scanStep_spec (i : Nat) (c : Char) (rest : List Char) :
    1 ≤ (scanStep i c rest).2 ∧
    (scanStep i c rest).2 ≤ rest.length + 1 ∧
    ∀ e, (scanStep i c rest).1 = some e →
      e.2 = (i, i + (scanStep i c rest).2) ∧
      (e.1 = LexResult.ok Token.Newline →
        c = '\n' ∧ (scanStep i c rest).2 = 1 + (rest.takeWhile isNlRunChar).length) := by
  by_cases hws : isHorizWs c = true
  · simp only [scanStep, if_pos hws]
    refine ⟨by omega, ?_, ?_⟩
    · have := takeWhile_length_le (p := isHorizWs) (l := rest)
      omega
    · intro e he
      simp at he
  · by_cases hnl : c = '\n'
    · simp only [scanStep, if_neg hws, if_pos hnl]
      refine ⟨by omega, ?_, ?_⟩
      · have := takeWhile_length_le (p := isNlRunChar) (l := rest)
        omega
      · intro e he
        have he' := Option.some.inj he
        subst he'
        exact ⟨rfl, fun _ => ⟨hnl, by simp⟩⟩
    · by_cases hlp : c = '('
      · simp only [scanStep, if_neg hws, if_neg hnl, if_pos hlp]
        refine ⟨by omega, by omega, ?_⟩
        intro e he
        have he' := Option.some.inj he
        subst he'
        exact ⟨rfl, fun h => absurd h (by simp)⟩
      · by_cases hrp : c = ')'
        · simp only [scanStep, if_neg hws, if_neg hnl, if_neg hlp, if_pos hrp]
          refine ⟨by omega, by omega, ?_⟩
          intro e he
          have he' := Option.some.inj he
          subst he'
          exact ⟨rfl, fun h => absurd h (by simp)⟩
        · by_cases hcol : c = ':'
          · simp only [scanStep, if_neg hws, if_neg hnl, if_neg hlp, if_neg hrp, if_pos hcol]
            refine ⟨by omega, by omega, ?_⟩
            intro e he
            have he' := Option.some.inj he
            subst he'
            exact ⟨rfl, fun h => absurd h (by simp)⟩
          · by_cases hdash : c = '-'
            · by_cases hgt : rest.head? = some '>'
              · have hrne : rest ≠ [] := by
                  intro hcon
                  rw [hcon] at hgt
                  simp at hgt
                have hrlen : 1 ≤ rest.length := List.length_pos.mpr hrne
                simp only [scanStep, if_neg hws, if_neg hnl, if_neg hlp, if_neg hrp,
                  if_neg hcol, if_pos hdash, if_pos hgt]
                refine ⟨by omega, by omega, ?_⟩
                intro e he
                have he' := Option.some.inj he
                subst he'
                exact ⟨rfl, fun h => absurd h (by simp)⟩
              · simp only [scanStep, if_neg hws, if_neg hnl, if_neg hlp, if_neg hrp,
                  if_neg hcol, if_pos hdash, if_neg hgt]
                refine ⟨by omega, by omega, ?_⟩
                intro e he
                have he' := Option.some.inj he
                subst he'
                exact ⟨rfl, fun h => absurd h (by simp)⟩
            · by_cases hlet : isLetterChar c = true
              · simp only [scanStep, if_neg hws, if_neg hnl, if_neg hlp, if_neg hrp,
                  if_neg hcol, if_neg hdash, if_pos hlet]
                refine ⟨by simp, ?_, ?_⟩
                · have := takeWhile_length_le (p := isLetterChar) (l := rest)
                  simp only [List.length_cons]
                  omega
                · intro e he
                  have he' := Option.some.inj he
                  subst he'
                  refine ⟨rfl, fun h => absurd h ?_⟩
                  simp only [keywordOrIdentifier]
                  split_ifs <;> simp
              · by_cases hdig : isDigitChar c = true
                · by_cases hfit : digitsToNat (c :: rest.takeWhile isDigitChar) ≤ i64Max
                  · simp only [scanStep, if_neg hws, if_neg hnl, if_neg hlp, if_neg hrp,
                      if_neg hcol, if_neg hdash, if_neg hlet, if_pos hdig, if_pos hfit]
                    refine ⟨by simp, ?_, ?_⟩
                    · have := takeWhile_length_le (p := isDigitChar) (l := rest)
                      simp only [List.length_cons]
                      omega
                    · intro e he
                      have he' := Option.some.inj he
                      subst he'
                      exact ⟨rfl, fun h => absurd h (by simp)⟩
                  · simp only [scanStep, if_neg hws, if_neg hnl, if_neg hlp, if_neg hrp,
                      if_neg hcol, if_neg hdash, if_neg hlet, if_pos hdig, if_neg hfit]
                    refine ⟨by simp, ?_, ?_⟩
                    · have := takeWhile_length_le (p := isDigitChar) (l := rest)
                      simp only [List.length_cons]
                      omega
                    · intro e he
                      have he' := Option.some.inj he
                      subst he'
                      exact ⟨rfl, fun h => absurd h (by simp)⟩
                · simp only [scanStep, if_neg hws, if_neg hnl, if_neg hlp, if_neg hrp,
                    if_neg hcol, if_neg hdash, if_neg hlet, if_neg hdig]
                  refine ⟨by omega, by omega, ?_⟩
                  intro e he
                  have he' := Option.some.inj he
                  subst he'
                  exact ⟨rfl, fun h => absurd h (by simp)⟩

lemma scanGo_mem_span : ∀ (fuel i : Nat) (l : List Char), ∀ e ∈ scanGo fuel i l,
    i ≤ e.2.1 ∧ e.2.1 ≤ e.2.2 ∧ e.2.2 ≤ i + l.length := by
  intro fuel
  induction fuel with
  | zero => intro i l e he; simp [scanGo] at he
  | succ fuel ih =>
    intro i l e he
    cases l with
    | nil => simp [scanGo] at he
    | cons c rest =>
      rw [scanGo] at he
      obtain ⟨h1, h2, h3⟩ := scanStep_spec i c rest
      rcases hstep : (scanStep i c rest).1 with _ | e'
      · rw [hstep] at he
        obtain ⟨ha, hb, hc⟩ :=
          ih (i + (scanStep i c rest).2) ((c :: rest).drop (scanStep i c rest).2) e he
        refine ⟨by omega, hb, ?_⟩
        rw [List.length_drop] at hc
        simp only [List.length_cons] at hc ⊢
        omega
      · rw [hstep] at he
        rcases List.mem_cons.mp he with rfl | he'
        · obtain ⟨hsp, _⟩ := h3 e hstep
          rw [hsp]
          simp only [List.length_cons]
          refine ⟨le_refl i, by omega, by omega⟩
        · obtain ⟨ha, hb, hc⟩ :=
            ih (i + (scanStep i c rest).2) ((c :: rest).drop (scanStep i c rest).2) e he'
          refine ⟨by omega, hb, ?_⟩
          rw [List.length_drop] at hc
          simp only [List.length_cons] at hc ⊢
          omega

lemma scanGo_chain : ∀ (fuel i : Nat) (l : List Char),
    List.Chain' (fun a b : Entry => a.2.2 ≤ b.2.1) (scanGo fuel i l) := by
  intro fuel
  induction fuel with
  | zero => intro i l; simp [scanGo]
  | succ fuel ih =>
    intro i l
    cases l with
    | nil => simp [scanGo]
    | cons c rest =>
      rw [scanGo]
      rcases hstep : (scanStep i c rest).1 with _ | e'
      · exact ih _ _
      · show List.Chain' (fun a b : Entry => a.2.2 ≤ b.2.1)
          (e' :: scanGo fuel (i + (scanStep i c rest).2)
            ((c :: rest).drop (scanStep i c rest).2))
        rw [List.chain'_cons']
        refine ⟨?_, ih _ _⟩
        intro y hy
        have hym : y ∈ scanGo fuel (i + (scanStep i c rest).2)
            ((c :: rest).drop (scanStep i c rest).2) := List.mem_of_mem_head? hy
        have hb := scanGo_mem_span fuel _ _ y hym
        obtain ⟨hsp, _⟩ := (scanStep_spec i c rest).2.2 e' hstep
        rw [hsp]
        exact hb.1

lemma scanGo_newline_slice (src : List Char) :
    ∀ (fuel i : Nat), ∀ e ∈ scanGo fuel i (src.drop i),
      e.1 = LexResult.ok Token.Newline →
      ∃ ws, sliceOf src e.2 = '\n' :: ws ∧ ∀ ch ∈ ws, isNlRunChar ch = true := by
  intro fuel
  induction fuel with
  | zero => intro i e he; simp [scanGo] at he
  | succ fuel ih =>
    intro i e he hnl
    cases hsrc : src.drop i with
    | nil => rw [hsrc] at he; simp [scanGo] at he
    | cons c rest =>
      rw [hsrc, scanGo] at he
      have halign : (c :: rest).drop (scanStep i c rest).2 =
          src.drop (i + (scanStep i c rest).2) := by
        rw [← hsrc, List.drop_drop]
      rcases hstep : (scanStep i c rest).1 with _ | e'
      · rw [hstep, halign] at he
        exact ih (i + (scanStep i c rest).2) e he hnl
      · rw [hstep] at he
        rcases List.mem_cons.mp he with rfl | he'
        · obtain ⟨hsp, hnlc⟩ := (scanStep_spec i c rest).2.2 e hstep
          obtain ⟨hc, hk⟩ := hnlc hnl
          subst hc
          refine ⟨rest.takeWhile isNlRunChar, ?_,
            fun ch hch => List.mem_takeWhile_imp hch⟩
          rw [hsp, hk]
          show (src.drop i).take (i + (1 + (rest.takeWhile isNlRunChar).length) - i) =
            '\n' :: rest.takeWhile isNlRunChar
          rw [hsrc, show i + (1 + (rest.takeWhile isNlRunChar).length) - i =
            (rest.takeWhile isNlRunChar).length + 1 by omega, List.take_succ_cons]
          rw [← List.prefix_iff_eq_take.mp (List.takeWhile_prefix _)]
        · rw [halign] at he'
          exact ih (i + (scanStep i c rest).2) e he' hnl

lemma afterLastNewline_no_nl (l : List Char) : '\n' ∉ afterLastNewline l := by
  intro h
  rw [afterLastNewline, List.mem_reverse] at h
  have := List.mem_takeWhile_imp h
  simp at this

lemma dropWhile_ne_head {m : List Char} (h : '\n' ∈ m) :
    ∃ ds, m.dropWhile (fun c => c != '\n') = '\n' :: ds := by
  induction m with
  | nil => simp at h
  | cons a m ih =>
    by_cases ha : a = '\n'
    · subst ha
      exact ⟨m, by simp [List.dropWhile_cons]⟩
    · have h' : '\n' ∈ m := by
        rcases List.mem_cons.mp h with h'' | h''
        · exact absurd h''.symm ha
        · exact h''
      obtain ⟨ds, hds⟩ := ih h'
      refine ⟨ds, ?_⟩
      rw [List.dropWhile_cons_of_pos (by simp [ha]), hds]

lemma afterLastNewline_decomp {l : List Char} (h : '\n' ∈ l) :
    ∃ p, l = p ++ '\n' :: afterLastNewline l := by
  obtain ⟨ds, hds⟩ := dropWhile_ne_head (m := l.reverse) (List.mem_reverse.mpr h)
  refine ⟨ds.reverse, ?_⟩
  have hsplit := List.takeWhile_append_dropWhile
    (p := fun c => c != '\n') (l := l.reverse)
  rw [hds] at hsplit
  have hrev := congrArg List.reverse hsplit
  rw [List.reverse_reverse, List.reverse_append, List.reverse_cons] at hrev
  rw [afterLastNewline]
  conv_lhs => rw [← hrev]
  simp

/-- C7: for every `Newline` token of the scanner, the matched text
decomposes as some prefix, a final newline character, and a tail `t`
containing no newline; the post-processor's width is exactly the
number of characters of `t`, and every character of `t` is a single
space or tab (counted as one each — no tab expansion). -/
theorem claim_c7_width_is_trailing_chars (src : List Char) (e : Entry) (he : e ∈ scan src)
    (hnl : e.1 = LexResult.ok Token.Newline) :
    ∃ p t, sliceOf src e.2 = p ++ '\n' :: t ∧ '\n' ∉ t ∧
      newlineWidth src e.2 = t.length ∧ ∀ ch ∈ t, ch = ' ' ∨ ch = '\t' := by
  have he' : e ∈ scanGo src.length 0 (src.drop 0) := by rwa [List.drop_zero]
  obtain ⟨ws, hws, hall⟩ := scanGo_newline_slice src src.length 0 e he' hnl
  have hmem : '\n' ∈ sliceOf src e.2 := by rw [hws]; exact List.mem_cons_self _ _
  obtain ⟨p, hp⟩ := afterLastNewline_decomp hmem
  refine ⟨p, afterLastNewline (sliceOf src e.2), hp, afterLastNewline_no_nl _, rfl, ?_⟩
  intro ch hch
  have hchsl : ch ∈ sliceOf src e.2 := by
    rw [hp]
    exact List.mem_append_right _ (List.mem_cons_of_mem _ hch)
  have hchne : ch ≠ '\n' := by
    intro hcon
    rw [hcon] at hch
    exact afterLastNewline_no_nl _ hch
  rw [hws] at hchsl
  rcases List.mem_cons.mp hchsl with rfl | hchws
  · exact absurd rfl hchne
  · have := hall ch hchws
    simp only [isNlRunChar, Bool.or_eq_true, decide_eq_true_eq] at this
    rcases this with (h' | h') | h'
    · exact Or.inl h'
    · exact Or.inr h'
    · exact absurd h' hchne

/-- Witness for C7 at `"a\n \tb"`, whose `Newline` token has span
`(1, 4)` and width 2 from the trailing space and tab. -/
theorem claim_c7_witness :
    ∃ p t, sliceOf "a\n \tb".toList ((1 : Nat), (4 : Nat)) = p ++ '\n' :: t ∧ '\n' ∉ t ∧
      newlineWidth "a\n \tb".toList (1, 4) = t.length ∧ ∀ ch ∈ t, ch = ' ' ∨ ch = '\t' :=
  claim_c7_width_is_trailing_chars "a\n \tb".toList
    (LexResult.ok Token.Newline, (1, 4)) (by decide) rfl

lemma newlineStep_fst_shape (src : List Char) (sp : Span) (stack : List Nat) :
    ∃ tail, (newlineStep src sp stack).1 = (LexResult.ok Token.Newline, sp) :: tail := by
  simp only [newlineStep]
  split_ifs <;> exact ⟨_, rfl⟩

lemma lexLoopS_span_source (src : List Char) :
    ∀ (es : List Entry) (stack : List Nat), ∀ e ∈ (lexLoopS src es stack).1,
      e.2 = (src.length, src.length) ∨ ∃ e₀ ∈ es, e.2 = e₀.2 := by
  intro es
  induction es with
  | nil =>
    intro stack e he
    rw [lexLoopS_nil] at he
    exact Or.inl (congrArg Prod.snd (List.eq_of_mem_replicate he))
  | cons x es ih =>
    intro stack e he
    obtain ⟨t, sp⟩ := x
    by_cases ht : t = LexResult.ok Token.Newline
    · subst ht
      rw [lexLoopS_cons_newline] at he
      rcases List.mem_append.mp he with h | h
      · exact Or.inr ⟨(LexResult.ok Token.Newline, sp), List.mem_cons_self _ _,
          newlineStep_spans e h⟩
      · rcases ih _ e h with h' | ⟨e₀, he₀, h'⟩
        · exact Or.inl h'
        · exact Or.inr ⟨e₀, List.mem_cons_of_mem _ he₀, h'⟩
    · rw [lexLoopS_cons_other src t sp es stack ht] at he
      rcases List.mem_cons.mp he with rfl | h
      · exact Or.inr ⟨(t, sp), List.mem_cons_self _ _, rfl⟩
      · rcases ih stack e h with h' | ⟨e₀, he₀, h'⟩
        · exact Or.inl h'
        · exact Or.inr ⟨e₀, List.mem_cons_of_mem _ he₀, h'⟩

lemma lexLoopS_head_span (src : List Char) (es : List Entry) (stack : List Nat) :
    ∀ y ∈ ((lexLoopS src es stack).1).head?,
      y.2 = (src.length, src.length) ∨ ∃ e₀ ∈ es.head?, y.2 = e₀.2 := by
  cases es with
  | nil =>
    intro y hy
    rw [lexLoopS_nil] at hy
    exact Or.inl (congrArg Prod.snd (List.eq_of_mem_replicate (List.mem_of_mem_head? hy)))
  | cons x es =>
    obtain ⟨t, sp⟩ := x
    by_cases ht : t = LexResult.ok Token.Newline
    · subst ht
      intro y hy
      rw [lexLoopS_cons_newline] at hy
      obtain ⟨tail, htail⟩ := newlineStep_fst_shape src sp stack
      rw [htail] at hy
      simp only [List.cons_append, List.head?_cons, Option.mem_def, Option.some.injEq] at hy
      subst hy
      exact Or.inr ⟨(LexResult.ok Token.Newline, sp), rfl, rfl⟩
    · intro y hy
      rw [lexLoopS_cons_other src t sp es stack ht] at hy
      simp only [List.head?_cons, Option.mem_def, Option.some.injEq] at hy
      subst hy
      exact Or.inr ⟨(t, sp), rfl, rfl⟩

lemma lexLoopS_chain (src : List Char) :
    ∀ (es : List Entry) (stack : List Nat),
      List.Chain' (fun a b : Entry => a.2.2 ≤ b.2.1) es →
      (∀ e ∈ es, e.2.2 ≤ src.length) →
      List.Chain' (fun a b : Entry => a.2 = b.2 ∨ a.2.2 ≤ b.2.1)
        (lexLoopS src es stack).1 := by
  intro es
  induction es with
  | nil =>
    intro stack _ _
    rw [lexLoopS_nil]
    refine List.Pairwise.chain' (List.pairwise_of_forall_mem_list ?_)
    intro a ha b hb
    rw [List.eq_of_mem_replicate ha, List.eq_of_mem_replicate hb]
    exact Or.inl rfl
  | cons x es ih =>
    intro stack hch hbnd
    obtain ⟨t, sp⟩ := x
    have hchTail := (List.chain'_cons'.mp hch).2
    have hbndTail : ∀ e ∈ es, e.2.2 ≤ src.length :=
      fun e he => hbnd e (List.mem_cons_of_mem _ he)
    by_cases ht : t = LexResult.ok Token.Newline
    · subst ht
      rw [lexLoopS_cons_newline]
      apply List.Chain'.append
      · refine List.Pairwise.chain' (List.pairwise_of_forall_mem_list ?_)
        intro a ha b hb
        rw [newlineStep_spans a ha, newlineStep_spans b hb]
        exact Or.inl rfl
      · exact ih (newlineStep src sp stack).2 hchTail hbndTail
      · intro a ha y hy
        have hasp : a.2 = sp := newlineStep_spans a (List.mem_of_getLast?_eq_some ha)
        rcases lexLoopS_head_span src es (newlineStep src sp stack).2 y hy with
          h' | ⟨e₀, he₀, hysp⟩
        · right
          rw [hasp, h']
          exact hbnd (LexResult.ok Token.Newline, sp) (List.mem_cons_self _ _)
        · right
          rw [hasp, hysp]
          exact (List.chain'_cons'.mp hch).1 e₀ he₀
    · rw [lexLoopS_cons_other src t sp es stack ht]
      rw [List.chain'_cons']
      refine ⟨?_, ih stack hchTail hbndTail⟩
      intro y hy
      rcases lexLoopS_head_span src es stack y hy with h' | ⟨e₀, he₀, hysp⟩
      · right
        rw [h']
        exact hbnd (t, sp) (List.mem_cons_self _ _)
      · right
        rw [hysp]
        exact (List.chain'_cons'.mp hch).1 e₀ he₀

lemma chain'_rel_all {x : Entry} : ∀ {l : List Entry},
    (∀ e ∈ l, e.2.1 ≤ e.2.2) →
    List.Chain' (fun a b : Entry => a.2 = b.2 ∨ a.2.2 ≤ b.2.1) l →
    (∀ y ∈ l.head?, x.2 = y.2 ∨ x.2.2 ≤ y.2.1) →
    ∀ y ∈ l, x.2 = y.2 ∨ x.2.2 ≤ y.2.1 := by
  intro l
  induction l with
  | nil => intro _ _ _ y hy; simp at hy
  | cons a l ih =>
    intro hwf hch hhead y hy
    have hxa : x.2 = a.2 ∨ x.2.2 ≤ a.2.1 := hhead a rfl
    rcases List.mem_cons.mp hy with rfl | hyl
    · exact hxa
    · obtain ⟨hah, htail⟩ := List.chain'_cons'.mp hch
      refine ih (fun e he => hwf e (List.mem_cons_of_mem _ he)) htail ?_ y hyl
      intro z hz
      have haz := hah z hz
      have hawf : a.2.1 ≤ a.2.2 := hwf a (List.mem_cons_self _ _)
      rcases hxa with h1 | h1 <;> rcases haz with h2 | h2
      · exact Or.inl (h1.trans h2)
      · refine Or.inr ?_
        rw [show x.2.2 = a.2.2 from congrArg Prod.snd h1]
        exact h2
      · refine Or.inr ?_
        rw [show z.2.1 = a.2.1 from (congrArg Prod.fst h2).symm]
        exact h1
      · exact Or.inr (le_trans h1 (le_trans hawf h2))

lemma chain'_to_pairwise : ∀ {l : List Entry},
    (∀ e ∈ l, e.2.1 ≤ e.2.2) →
    List.Chain' (fun a b : Entry => a.2 = b.2 ∨ a.2.2 ≤ b.2.1) l →
    List.Pairwise (fun a b : Entry => a.2 = b.2 ∨ a.2.2 ≤ b.2.1) l := by
  intro l
  induction l with
  | nil => intro _ _; exact List.Pairwise.nil
  | cons x l ih =>
    intro hwf hch
    obtain ⟨hhead, htail⟩ := List.chain'_cons'.mp hch
    have hwfTail : ∀ e ∈ l, e.2.1 ≤ e.2.2 := fun e he => hwf e (List.mem_cons_of_mem _ he)
    rw [List.pairwise_cons]
    exact ⟨chain'_rel_all hwfTail htail hhead, ih hwfTail htail⟩

lemma lex_wf (src : List Char) : ∀ e ∈ lex src, e.2.1 ≤ e.2.2 ∧ e.2.2 ≤ src.length := by
  intro e he
  rcases lexLoopS_span_source src (scan src) [0] e he with h | ⟨e₀, he₀, h⟩
  · rw [h]
    exact ⟨le_refl _, le_refl _⟩
  · have hb := scanGo_mem_span src.length 0 src e₀ he₀
    rw [h]
    refine ⟨hb.2.1, ?_⟩
    have := hb.2.2
    simpa using this

/-- Counterexample to C8: in `lex "x:\n  a\n b\n"` the `Newline` entry
at index 5 and the inconsistent-dedent error entry at index 7 carry the
same two-character span `(6, 8)`; they overlap although neither is a
synthetic `Indentation`/`Deindentation` token, so the stated "sole
exception" does not cover all overlaps. -/
theorem claim_c8_counterexample :
    ¬ ∀ (src : List Char) (i j : Nat) (a b : Entry),
        (lex src)[i]? = some a → (lex src)[j]? = some b → i < j →
        (a.2.2 ≤ b.2.1 ∨
          a.1 = LexResult.ok Token.Indentation ∨ a.1 = LexResult.ok Token.Deindentation ∨
          b.1 = LexResult.ok Token.Indentation ∨ b.1 = LexResult.ok Token.Deindentation) := by
  intro h
  have h' := h "x:\n  a\n b\n".toList 5 7 (LexResult.ok Token.Newline, (6, 8))
    (LexResult.err, (6, 8)) (by decide) (by decide) (by decide)
  revert h'
  decide

/-- C8 (amended): every span of `lex` lies within the input and is
well-formed; start offsets are non-decreasing along the stream; and any
two entries either have disjoint spans or exactly identical spans (a
`Newline` shares its full span with its synthetic tokens and a possible
inconsistent-dedent error entry; EOF `Deindentation`s share the
zero-width EOF point). -/
theorem claim_c8_span_order (src : List Char) :
    (∀ e ∈ lex src, e.2.1 ≤ e.2.2 ∧ e.2.2 ≤ src.length) ∧
    List.Pairwise (fun a b : Entry => a.2.1 ≤ b.2.1) (lex src) ∧
    List.Pairwise (fun a b : Entry => a.2 = b.2 ∨ a.2.2 ≤ b.2.1) (lex src) := by
  have hwf := lex_wf src
  have hbnd : ∀ e ∈ scan src, e.2.2 ≤ src.length := by
    intro e he
    have := (scanGo_mem_span src.length 0 src e he).2.2
    simpa using this
  have hch := lexLoopS_chain src (scan src) [0] (scanGo_chain src.length 0 src) hbnd
  have hpw := chain'_to_pairwise (fun e he => (hwf e he).1) hch
  refine ⟨hwf, ?_, hpw⟩
  refine hpw.imp_of_mem ?_
  intro a b ha hb hr
  rcases hr with h | h
  · exact le_of_eq (congrArg Prod.fst h)
  · exact le_trans (hwf a ha).1 h

/-- Witness for C8's amended theorem: the well-formedness conjunct at
the `Indentation` entry of `lex "a\n b"`. -/
theorem claim_c8_witness :
    (1 : Nat) ≤ 3 ∧ (3 : Nat) ≤ ("a\n b".toList).length :=
  (claim_c8_span_order "a\n b".toList).1
    (LexResult.ok Token.Indentation, (1, 3)) (by decide)

lemma lexLoopS_head_not_ind (src : List Char) (es : List Entry) (stack : List Nat)
    (hns : NoSynth es) :
    ∀ y ∈ ((lexLoopS src es stack).1).head?, y.1 ≠ LexResult.ok Token.Indentation := by
  cases es with
  | nil =>
    intro y hy
    rw [lexLoopS_nil] at hy
    rw [List.eq_of_mem_replicate (List.mem_of_mem_head? hy)]
    simp
  | cons x es =>
    obtain ⟨t, sp⟩ := x
    by_cases ht : t = LexResult.ok Token.Newline
    · subst ht
      intro y hy
      rw [lexLoopS_cons_newline] at hy
      obtain ⟨tail, htail⟩ := newlineStep_fst_shape src sp stack
      rw [htail] at hy
      simp only [List.cons_append, List.head?_cons, Option.mem_def, Option.some.injEq] at hy
      subst hy
      simp
    · intro y hy
      rw [lexLoopS_cons_other src t sp es stack ht] at hy
      simp only [List.head?_cons, Option.mem_def, Option.some.injEq] at hy
      subst hy
      exact (hns (t, sp) (List.mem_cons_self _ _)).1

lemma lexLoopS_ind_after_nl (src : List Char) :
    ∀ (es : List Entry) (stack : List Nat), NoSynth es → 0 ∈ stack →
      List.Chain' (fun a b : Entry => b.1 = LexResult.ok Token.Indentation →
        a.1 = LexResult.ok Token.Newline) (lexLoopS src es stack).1 := by
  intro es
  induction es with
  | nil =>
    intro stack _ _
    rw [lexLoopS_nil]
    refine List.Pairwise.chain' (List.pairwise_of_forall_mem_list ?_)
    intro a _ b hb habs
    rw [List.eq_of_mem_replicate hb] at habs
    simp at habs
  | cons x es ih =>
    intro stack hns h0
    obtain ⟨t, sp⟩ := x
    have hnsT : NoSynth es := fun y hy => hns y (List.mem_cons_of_mem _ hy)
    by_cases ht : t = LexResult.ok Token.Newline
    · subst ht
      rw [lexLoopS_cons_newline]
      apply List.Chain'.append
      · rcases newlineStep_cases src sp stack h0 with ⟨h1, _⟩ | ⟨k, ers, h1, hers, _, _⟩ |
            ⟨h1, _⟩
        · rw [h1]
          exact List.chain'_pair.mpr (fun _ => rfl)
        · rw [h1]
          have hmem : ∀ b ∈ List.replicate k (LexResult.ok Token.Deindentation, sp) ++ ers,
              b.1 ≠ LexResult.ok Token.Indentation := by
            intro b hb
            rcases List.mem_append.mp hb with h' | h'
            · rw [List.eq_of_mem_replicate h']
              simp
            · rcases hers with rfl | rfl
              · simp at h'
              · rw [List.mem_singleton.mp h']
                simp
          rw [List.chain'_cons']
          refine ⟨?_, List.Pairwise.chain' (List.pairwise_of_forall_mem_list ?_)⟩
          · intro y hy habs
            exact absurd habs (hmem y (List.mem_of_mem_head? hy))
          · intro a _ b hb habs
            exact absurd habs (hmem b hb)
        · rw [h1]
          exact List.chain'_singleton _
      · exact ih _ hnsT (newlineStep_no_synth_preserved h0)
      · intro a _ y hy habs
        exact absurd habs
          (lexLoopS_head_not_ind src es (newlineStep src sp stack).2 hnsT y hy)
    · rw [lexLoopS_cons_other src t sp es stack ht]
      rw [List.chain'_cons']
      refine ⟨?_, ih stack hnsT h0⟩
      intro y hy habs
      exact absurd habs (lexLoopS_head_not_ind src es stack hnsT y hy)

lemma scanGo_nil (fuel i : Nat) : scanGo fuel i [] = [] := by
  cases fuel <;> rfl

lemma scanGo_single_x (fuel i : Nat) :
    scanGo (fuel + 1) i ['x'] =
      [(LexResult.ok (Token.Identifier ['x']), (i, i + 1))] := by
  have hstep : scanStep i 'x' [] =
      (some (LexResult.ok (Token.Identifier ['x']), (i, i + 1)), 1) := by
    simp [scanStep, isHorizWs, isLetterChar, isDigitChar, keywordOrIdentifier]
  rw [scanGo, hstep]
  simp [scanGo_nil]

lemma takeWhile_ws_append (w : List Char) (hw : ∀ c ∈ w, isHorizWs c = true) :
    (w ++ ['x']).takeWhile isHorizWs = w := by
  induction w with
  | nil => decide
  | cons c w ih =>
    rw [List.cons_append, List.takeWhile_cons_of_pos (hw c (List.mem_cons_self _ _)),
      ih (fun x hx => hw x (List.mem_cons_of_mem _ hx))]

lemma scan_ws_x (w : List Char) (hw : ∀ c ∈ w, isHorizWs c = true) :
    scan (w ++ ['x']) =
      [(LexResult.ok (Token.Identifier ['x']), (w.length, w.length + 1))] := by
  cases w with
  | nil => decide
  | cons c w' =>
    have hc : isHorizWs c = true := hw c (List.mem_cons_self _ _)
    have hw' : ∀ x ∈ w', isHorizWs x = true := fun x hx => hw x (List.mem_cons_of_mem _ hx)
    have hstep : scanStep 0 c (w' ++ ['x']) = (none, 1 + w'.length) := by
      simp only [scanStep, if_pos hc]
      rw [takeWhile_ws_append w' hw']
    rw [scan, List.cons_append]
    have hlen : (c :: (w' ++ ['x'])).length = w'.length + 1 + 1 := by simp
    rw [hlen, scanGo, hstep]
    have hdrop : (c :: (w' ++ ['x'])).drop (1 + w'.length) = ['x'] := by
      rw [show 1 + w'.length = w'.length + 1 by omega, List.drop_succ_cons]
      exact List.drop_left w' ['x']
    simp only [hdrop]
    rw [scanGo_single_x]
    simp only [List.length_cons]
    congr 1
    have : 0 + (1 + w'.length) = w'.length + 1 := by omega
    rw [this]

lemma lex_ws_x (w : List Char) (hw : ∀ c ∈ w, isHorizWs c = true) :
    lex (w ++ ['x']) =
      [(LexResult.ok (Token.Identifier ['x']), (w.length, w.length + 1))] := by
  rw [lex, scan_ws_x w hw]
  rfl

/-- C10: an `Indentation` entry can only appear in the output
immediately after a `Newline` entry (in particular never first), and
horizontal whitespace at the very start of the input is skipped without
opening a block: for any run `w` of spaces/tabs, `lex (w ++ "x")` is
just the identifier token, whose span starts after `w`, with no
`Indentation`. -/
theorem claim_c10_no_leading_block :
    (∀ src : List Char,
      (∀ y ∈ (lex src).head?, y.1 ≠ LexResult.ok Token.Indentation) ∧
      List.Chain' (fun a b : Entry => b.1 = LexResult.ok Token.Indentation →
        a.1 = LexResult.ok Token.Newline) (lex src)) ∧
    (∀ w : List Char, (∀ c ∈ w, c = ' ' ∨ c = '\t') →
      lex (w ++ ['x']) =
        [(LexResult.ok (Token.Identifier ['x']), (w.length, w.length + 1))]) := by
  constructor
  · intro src
    constructor
    · exact lexLoopS_head_not_ind src (scan src) [0] (scan_no_synth src.length 0 src)
    · exact lexLoopS_ind_after_nl src (scan src) [0] (scan_no_synth src.length 0 src)
        (List.mem_singleton.mpr rfl)
  · intro w hw
    refine lex_ws_x w ?_
    intro c hc
    rcases hw c hc with rfl | rfl <;> rfl

/-- Witness for C10: two leading spaces are skipped, the identifier
starts at offset 2, and no `Indentation` is emitted. -/
theorem claim_c10_witness :
    lex ("  ".toList ++ ['x']) =
      [(LexResult.ok (Token.Identifier ['x']), (2, 3))] :=
  claim_c10_no_leading_block.2 "  ".toList (by decide)

/-- Counterexample to C3: for input `"a\n b"` the synthetic
`Indentation` entry carries the full span `(1, 3)` of its triggering
`Newline` token, which has width 2, not a zero-width point span. -/
theorem claim_c3_counterexample :
    (lex "a\n b".toList)[2]? = some (LexResult.ok Token.Indentation, (1, 3)) ∧
      (1 : Nat) ≠ 3 := by decide

end Pyrs
